import Mathlib

/-!
Shallow embedding of the FINC450 exchange-rate pipeline.

Source files:
* exchange_rate_analysis.py — loader, change-series transformer, statistics
  aggregator, correlation matrix, SVG chart renderer;
* bloomberg_weekly_loader.py — XLSX cell extractor (column decoding, row
  padding);
* analysis/plot_exchange_rates_fred_style.py — date-column identification.

Dates are modelled as integers (only their linear order matters), numeric
cell values as real numbers.  Python standard-library collaborators that the
repository merely calls (strptime, float, the CSV reader) are abstracted as
function parameters; everything the repository itself computes is translated
definition by definition.
-/

abbrev Date := ℤ

/-! ## exchange_rate_analysis.parse_float

The cleaning steps (strip dollar signs, thousands separators and surrounding
whitespace, empty means absent) are repository code; the final stdlib call
float(cleaned) together with its try/except ValueError is abstracted as the
parameter pyFloat : String → Option ℝ. -/

/-- Python str.strip: drop whitespace from both ends. -/
def pyStrip (s : List Char) : List Char :=
  ((s.dropWhile Char.isWhitespace).reverse.dropWhile Char.isWhitespace).reverse

/-- Embedding of parse_float (exchange_rate_analysis.py lines 14-23). -/
def parse_float (pyFloat : String → Option ℝ) (value : Option String) : Option ℝ :=
  match value with
  | none => none
  | some v =>
      let cleaned := pyStrip (v.toList.filter (fun ch => !(ch == '$' || ch == ',')))
      if cleaned.isEmpty then none else pyFloat (String.mk cleaned)

/-! ## exchange_rate_analysis.load_exchange_rates

A CSV row from csv.DictReader is modelled as a lookup function
String → Option String (row.get).  The stdlib datetime.strptime call with
pattern percent-m/percent-d/percent-Y, wrapped in try/except ValueError, is
abstracted as strptime : String → Option Date. -/

/-- One loop iteration's decision for a row (exchange_rate_analysis.py lines
33-38): the row is skipped when the Date field is missing, empty or the
placeholder "(auto)", or when strptime fails; otherwise it contributes the
parsed date. -/
def rowKeep (strptime : String → Option Date) (row : String → Option String) : Option Date :=
  match row "Date" with
  | none => none
  | some s => if s = "" ∨ s = "(auto)" then none else strptime s

/-- Key list of a Python dict comprehension over a possibly repeating list:
each name once, in first-occurrence order. -/
def pyDictKeys (l : List String) : List String :=
  l.foldl (fun acc c => if c ∈ acc then acc else acc ++ [c]) []

/-- Embedding of load_exchange_rates (exchange_rate_analysis.py lines 26-42).
The dict data = \x7bc: [] for c in currencies\x7d aliases duplicate column
names into a single list, and the inner loop for currency in currencies then
appends once per occurrence of the name; hence every kept row contributes,
for each distinct name c, currencies.count c copies of the value parsed from
row.get(c, ""). -/
def load_exchange_rates (strptime : String → Option Date) (pyFloat : String → Option ℝ)
    (fieldnames : List String) (rows : List (String → Option String)) :
    List Date × List (String × List (Option ℝ)) :=
  let currencies := fieldnames.filter (fun f => !(f == "Date"))
  let kept := rows.filterMap (fun row => (rowKeep strptime row).map (fun d => (d, row)))
  (kept.map Prod.fst,
   (pyDictKeys currencies).map (fun c =>
     (c, kept.flatMap (fun dr =>
            List.replicate (currencies.count c)
              (parse_float pyFloat (some ((dr.2 c).getD "")))))))

/-! ## exchange_rate_analysis.compute_weekly_log_changes -/

/-- One loop iteration of compute_weekly_log_changes (lines 53-64): given the
tracked previous raw value and the current raw value, the emitted change. -/
noncomputable def logChangeStep (previous current : Option ℝ) : Option ℝ :=
  match previous, current with
  | some p, some c =>
      if p ≤ 0 ∨ c ≤ 0 then none else some ((Real.log c - Real.log p) * 100)
  | _, _ => none

/-- Modelled from the spec: the percent-change formula of section 4.3, the
configuration alternative to the log formula.  The repository source under
src only contains the log-change variant; the spec describes percent change
as (current / previous - 1) * 100, absent when previous is absent, current
is absent, or previous == 0. -/
noncomputable def percentChangeStep (previous current : Option ℝ) : Option ℝ :=
  match previous, current with
  | some p, some c => if p = 0 then none else some ((c / p - 1) * 100)
  | _, _ => none

/-- The per-series loop of compute_weekly_log_changes, parametrised by the
change formula (the spec's configuration choice): previous is reassigned to
the current raw value on every iteration, in all branches. -/
noncomputable def computeSeriesChanges (step : Option ℝ → Option ℝ → Option ℝ) :
    Option ℝ → List (Date × Option ℝ) → List (Date × Option ℝ)
  | _, [] => []
  | previous, (d, current) :: rest =>
      (d, step previous current) :: computeSeriesChanges step current rest

/-- Embedding of compute_weekly_log_changes (exchange_rate_analysis.py lines
45-66): per currency, the series of (date, optional log change) pairs, with
previous initially None. -/
noncomputable def compute_weekly_log_changes (dates : List Date)
    (data : List (String × List (Option ℝ))) : List (String × List (Date × Option ℝ)) :=
  data.map (fun entry => (entry.1, computeSeriesChanges logChangeStep none (dates.zip entry.2)))

/-- Modelled from the spec: the transformer with the percent-change formula
selected by configuration (spec section 4.3); identical loop, percent step. -/
noncomputable def compute_weekly_percent_changes (dates : List Date)
    (data : List (String × List (Option ℝ))) : List (String × List (Date × Option ℝ)) :=
  data.map (fun entry => (entry.1, computeSeriesChanges percentChangeStep none (dates.zip entry.2)))

/-- Spec-side description of the log-change series (claims C1): the entry at
index i is present exactly when i ≥ 1 and both values[i] and values[i-1] are
present and strictly positive, in which case it equals
(ln values[i] - ln values[i-1]) * 100. -/
noncomputable def specLogChangeAt (values : List (Option ℝ)) (i : ℕ) : Option ℝ :=
  if i = 0 then none
  else
    match values[i-1]?, values[i]? with
    | some (some p), some (some c) =>
        if 0 < p ∧ 0 < c then some ((Real.log c - Real.log p) * 100) else none
    | _, _ => none

/-- Spec-side description of the percent-change series (claim C2): the entry
at index i is (values[i] / values[i-1] - 1) * 100, absent exactly when the
previous value is absent (including i = 0), the current value is absent, or
the previous value is zero. -/
noncomputable def specPercentChangeAt (values : List (Option ℝ)) (i : ℕ) : Option ℝ :=
  if i = 0 then none
  else
    match values[i-1]?, values[i]? with
    | some (some p), some (some c) => if p = 0 then none else some ((c / p - 1) * 100)
    | _, _ => none

/-! ## exchange_rate_analysis.summarize_percent_changes -/

/-- statistics.fmean: the arithmetic mean. -/
noncomputable def fmean (xs : List ℝ) : ℝ := xs.sum / xs.length

/-- statistics.stdev: the sample standard deviation,
sqrt of (sum of squared deviations) / (n - 1). -/
noncomputable def stdev (xs : List ℝ) : ℝ :=
  Real.sqrt ((xs.map (fun x => (x - fmean xs) ^ 2)).sum / ((xs.length : ℝ) - 1))

/-- The date-window test of the list comprehension in
summarize_percent_changes (lines 76-82): both bounds optional, inclusive. -/
def windowOk (start_date end_date : Option Date) (d : Date) : Bool :=
  (match start_date with | none => true | some s => decide (s ≤ d))
  && (match end_date with | none => true | some e => decide (d ≤ e))

/-- The qualifying values of one series: present change values whose date
lies in the optional closed window (lines 76-82). -/
def qualifyingValues (start_date end_date : Option Date)
    (series : List (Date × Option ℝ)) : List ℝ :=
  series.filterMap (fun p =>
    match p.2 with
    | some v => if windowOk start_date end_date p.1 then some v else none
    | none => none)

/-- Embedding of summarize_percent_changes (exchange_rate_analysis.py lines
69-89): a series with fewer than 2 qualifying values is skipped; otherwise
its entry holds statistics.fmean and statistics.stdev of those values. -/
noncomputable def summarize_percent_changes
    (percent_changes : List (String × List (Date × Option ℝ)))
    (start_date end_date : Option Date) : List (String × (ℝ × ℝ)) :=
  percent_changes.filterMap (fun entry =>
    let values := qualifyingValues start_date end_date entry.2
    if values.length < 2 then none
    else some (entry.1, (fmean values, stdev values)))

/-! ## exchange_rate_analysis.write_correlation_matrix_csv

Only the computed cell contents are modelled (the CSV serialisation writes a
blank field for none and the formatted coefficient for some). -/

/-- Sum of squared deviations from the mean (the sxx of
statistics.correlation). -/
noncomputable def sxx (xs : List ℝ) : ℝ :=
  (xs.map (fun x => (x - fmean xs) ^ 2)).sum

/-- Sum of products of paired deviations (the sxy of
statistics.correlation). -/
noncomputable def sxy (xs ys : List ℝ) : ℝ :=
  ((xs.zip ys).map (fun p => (p.1 - fmean xs) * (p.2 - fmean ys))).sum

/-- statistics.correlation on equally long lists: sxy / sqrt(sxx * syy); the
ZeroDivisionError raised when the divisor is zero becomes none (the code
catches StatisticsError and writes a blank cell). -/
noncomputable def correlation (xs ys : List ℝ) : Option ℝ :=
  if Real.sqrt (sxx xs * sxx ys) = 0 then none
  else some (sxy xs ys / Real.sqrt (sxx xs * sxx ys))

/-- The pairing test of the list comprehension on lines 141-145: keep a
zipped position when both sides are present. -/
def pairPresent (p : Option ℝ × Option ℝ) : Option (ℝ × ℝ) :=
  match p.1, p.2 with
  | some l, some r => some (l, r)
  | _, _ => none

/-- One cell of the correlation matrix (lines 139-156): pair up positions
where both series are present, require at least 2 pairs, else blank. -/
noncomputable def corrCell (base other : List (Option ℝ)) : Option ℝ :=
  let paired := (base.zip other).filterMap pairPresent
  if paired.length < 2 then none
  else correlation (paired.map Prod.fst) (paired.map Prod.snd)

/-- Embedding of the matrix computed by write_correlation_matrix_csv (lines
123-157): values_by_currency strips the dates; every ordered pair of
currency rows yields one cell. -/
noncomputable def correlationMatrix
    (percent_changes : List (String × List (Date × Option ℝ))) : List (List (Option ℝ)) :=
  let values_by_currency := percent_changes.map (fun entry => entry.2.map Prod.snd)
  values_by_currency.map (fun base =>
    values_by_currency.map (fun other => corrCell base other))

/-- Spec-side list of paired present values, by index position (claim C8):
position i qualifies exactly when both series have a present value there. -/
noncomputable def bothPresentPairs (xs ys : List (Option ℝ)) : List (ℝ × ℝ) :=
  (List.range xs.length).filterMap (fun i =>
    match xs[i]?, ys[i]? with
    | some (some a), some (some b) => some (a, b)
    | _, _ => none)

/-- Spec-side Pearson correlation coefficient over a list of pairs. -/
noncomputable def pearson (ps : List (ℝ × ℝ)) : ℝ :=
  sxy (ps.map Prod.fst) (ps.map Prod.snd)
    / Real.sqrt (sxx (ps.map Prod.fst) * sxx (ps.map Prod.snd))

/-! ## exchange_rate_analysis.plot_series_svg

Only the geometry is modelled: the filtered (index, value) points and the
two scaling functions that place them on the canvas. -/

/-- The present (index, value) points of a series (line 169). -/
def seriesPoints (values : List (Option ℝ)) : List (ℕ × ℝ) :=
  values.enum.filterMap (fun p => p.2.map (fun y => (p.1, y)))

/-- Python math.isclose with default tolerances rel_tol = 1e-9,
abs_tol = 0. -/
noncomputable def isclose (a b : ℝ) : Prop :=
  |a - b| ≤ max (1 / 1000000000 * max |a| |b|) 0

noncomputable instance isclose.decidable (a b : ℝ) : Decidable (isclose a b) :=
  inferInstanceAs (Decidable (_ ≤ _))

/-- min(x_values) as used on line 176 (0 is never reached: the code returns
early when there are no points). -/
noncomputable def rawMinX (values : List (Option ℝ)) : ℝ :=
  (((seriesPoints values).map (fun p => (p.1 : ℝ))).min?).getD 0

/-- max(x_values) as used on line 176. -/
noncomputable def rawMaxX (values : List (Option ℝ)) : ℝ :=
  (((seriesPoints values).map (fun p => (p.1 : ℝ))).max?).getD 0

/-- min(y_values) as used on line 177. -/
noncomputable def rawMinY (values : List (Option ℝ)) : ℝ :=
  (((seriesPoints values).map Prod.snd).min?).getD 0

/-- max(y_values) as used on line 177. -/
noncomputable def rawMaxY (values : List (Option ℝ)) : ℝ :=
  (((seriesPoints values).map Prod.snd).max?).getD 0

/-- min_y after the degenerate-range widening of lines 179-181. -/
noncomputable def loY (values : List (Option ℝ)) : ℝ :=
  if isclose (rawMinY values) (rawMaxY values) then rawMinY values - 1 else rawMinY values

/-- max_y after the degenerate-range widening of lines 179-181. -/
noncomputable def hiY (values : List (Option ℝ)) : ℝ :=
  if isclose (rawMinY values) (rawMaxY values) then rawMaxY values + 1 else rawMaxY values

/-- scale_x (lines 186-189). -/
noncomputable def scaleX (values : List (Option ℝ)) (width padding : ℝ) (x : ℝ) : ℝ :=
  if rawMaxX values = rawMinX values then padding + (width - 2 * padding) / 2
  else padding + (x - rawMinX values) / (rawMaxX values - rawMinX values) * (width - 2 * padding)

/-- scale_y (lines 191-192). -/
noncomputable def scaleY (values : List (Option ℝ)) (height padding : ℝ) (y : ℝ) : ℝ :=
  padding + (hiY values - y) / (hiY values - loY values) * (height - 2 * padding)

/-- The mapped polyline points (lines 194-196). -/
noncomputable def polylinePoints (values : List (Option ℝ)) (width height padding : ℝ) :
    List (ℝ × ℝ) :=
  (seriesPoints values).map (fun p =>
    (scaleX values width padding p.1, scaleY values height padding p.2))

/-- Embedding of plot_series_svg's output decision (lines 169-171): no
present points means no output document at all. -/
noncomputable def plot_series_svg (values : List (Option ℝ)) (width height padding : ℝ) :
    Option (List (ℝ × ℝ)) :=
  if seriesPoints values = [] then none
  else some (polylinePoints values width height padding)

/-! ## bloomberg_weekly_loader -/

/-- Embedding of the column decoder (bloomberg_weekly_loader.py lines
25-30): keep the alphabetic characters, fold them as a 1-indexed base-26
letter-position number, return it 0-indexed. -/
def _column_index (cell_ref : List Char) : ℤ :=
  let letters := cell_ref.filter Char.isAlpha
  (letters.foldl (fun idx ch => idx * 26 + ((ch.toUpper.toNat : ℤ) - ('A'.toNat : ℤ) + 1)) 0) - 1

/-- One worksheet cell as it reaches the grid-building code: its reference
attribute (empty when the r attribute is missing or empty, which the code
skips) and its already resolved textual value.  Shared-string and inline
string resolution happens before this point and is not needed by the padding
claims. -/
structure Cell where
  ref : List Char
  value : String

/-- Python dict assignment row_cells[col_idx] = value (line 75), on a dict
modelled as an association list in insertion order: an existing key keeps
its position and receives the new value, a new key is appended. -/
def dictInsert (d : List (ℤ × String)) (k : ℤ) (v : String) : List (ℤ × String) :=
  if k ∈ d.map Prod.fst then d.map (fun e => if e.1 = k then (k, v) else e)
  else d ++ [(k, v)]

/-- The per-row cell dict built by the inner loop of _read_sheet_cells
(lines 55-75): cells processed in document order, cells with an empty
reference skipped, later declarations of the same column overwriting
earlier ones. -/
def rowDict (cells : List Cell) : List (ℤ × String) :=
  cells.foldl (fun d c =>
    if c.ref.isEmpty then d else dictInsert d (_column_index c.ref) c.value) []

/-- The max_col update of line 61 (skipped cells, line 58-59, leave it
unchanged). -/
def maxColStep (m : ℤ) (c : Cell) : ℤ :=
  if c.ref.isEmpty then m else max m (_column_index c.ref)

/-- Embedding of _read_sheet_cells (lines 46-78): the list of per-row cell
dicts and the column count max_col + 1, with max_col starting at 0. -/
def _read_sheet_cells (sheetRows : List (List Cell)) : List (List (ℤ × String)) × ℤ :=
  (sheetRows.map rowDict,
   (sheetRows.foldl (fun m row => row.foldl maxColStep m) 0) + 1)

/-- Python list item assignment row[idx] = value: a negative index wraps
around from the end, so idx = -1 writes the last position.  Outside the
range from -len to len - 1 Python raises IndexError; the model leaves the
row unchanged there, a case _read_sheet_cells never produces, since every
decoded index is at least -1 (letterless reference) and at most max_col,
hence inside the range for width max_col + 1. -/
def pyListSet (row : List String) (idx : ℤ) (value : String) : List String :=
  let j := if idx < 0 then idx + (row.length : ℤ) else idx
  if 0 ≤ j ∧ j < (row.length : ℤ) then row.set j.toNat value else row

/-- A fixed-width row (lines 88-90): start from column_count empty strings,
then perform row[idx] = value for the dict items in insertion order. -/
def padRow (column_count : ℕ) (d : List (ℤ × String)) : List String :=
  d.foldl (fun row kv => pyListSet row kv.1 kv.2) (List.replicate column_count "")

/-- The extractor's output grid. -/
structure SheetData where
  header : List String
  rows : List (List String)

/-- Embedding of load_bloomberg_weekly_exchange_rates (lines 81-98): pad
every row to the common width, first row becomes the header. -/
def load_bloomberg_weekly_exchange_rates (sheetRows : List (List Cell)) : SheetData :=
  let result := _read_sheet_cells sheetRows
  let padded := result.1.map (padRow result.2.toNat)
  match padded with
  | [] => ⟨[], []⟩
  | h :: t => ⟨h, t⟩

/-- Spec-side list of all decoded column offsets declared anywhere in the
sheet (claim C4). -/
def declaredCols (sheetRows : List (List Cell)) : List ℤ :=
  (sheetRows.map (fun row =>
    row.filterMap (fun c => if c.ref.isEmpty then none else some (_column_index c.ref)))).flatten

/-- Spec-side grid width (claim C4): one more than the maximum declared
column offset (at least one column even when nothing is declared, matching
max_col's start value 0). -/
def specWidth (sheetRows : List (List Cell)) : ℤ :=
  1 + (declaredCols sheetRows).foldr max 0

/-! ## analysis/plot_exchange_rates_fred_style.find_date_column -/

/-- The test of line 19: the lower-cased column name contains "date" as a
substring. -/
def containsDate (column : List Char) : Bool :=
  decide (['d', 'a', 't', 'e'] <:+: column.map Char.toLower)

/-- Embedding of find_date_column (plot_exchange_rates_fred_style.py lines
16-21): first matching column, else the first column (none only on an empty
header, where the Python code would raise IndexError). -/
def find_date_column (columns : List (List Char)) : Option (List Char) :=
  match columns.find? containsDate with
  | some c => some c
  | none => columns.head?

/-- The non-date columns that plot_exchange_rates (lines 47-49) turns into
plotted series: every column except the identified date column. -/
def plottedColumns (columns : List (List Char)) (date_column : List Char) :
    List (List Char) :=
  columns.filter (fun c => !(c == date_column))

/-! ## Helper lemmas -/

theorem logChangeStep_none_left (x : Option ℝ) : logChangeStep none x = none := by
  cases x <;> rfl

theorem percentChangeStep_none_left (x : Option ℝ) : percentChangeStep none x = none := by
  cases x <;> rfl

theorem computeSeriesChanges_getElem (step : Option ℝ → Option ℝ → Option ℝ)
    (l : List (Date × Option ℝ)) (prev : Option ℝ) (i : ℕ) (hi : i < l.length) :
    (computeSeriesChanges step prev l)[i]? =
      some ((l.getD i (0, none)).1,
        step (if i = 0 then prev else (l.getD (i - 1) (0, none)).2) (l.getD i (0, none)).2) := by
  induction l generalizing prev i with
  | nil => simp at hi
  | cons hd tl ih =>
      obtain ⟨d, cur⟩ := hd
      match i with
      | 0 =>
          simp [computeSeriesChanges, List.getD_eq_getElem?_getD]
      | Nat.succ k =>
          have hk : k < tl.length := by simpa using hi
          rw [show computeSeriesChanges step prev ((d, cur) :: tl)
                = (d, step prev cur) :: computeSeriesChanges step cur tl from rfl,
              List.getElem?_cons_succ, ih cur k hk]
          match k with
          | 0 =>
              simp [List.getD_eq_getElem?_getD]
          | Nat.succ m =>
              simp [List.getD_eq_getElem?_getD, List.getElem?_cons_succ]

theorem zip_getD_eq (dates : List Date) (values : List (Option ℝ)) (i : ℕ)
    (hd : i < dates.length) (hv : i < values.length) :
    (dates.zip values).getD i (0, none) = (dates.getD i 0, values.getD i none) := by
  have h1 : dates[i]? = some (dates.getD i 0) := by
    simp [List.getD_eq_getElem?_getD, List.getElem?_eq_getElem hd]
  have h2 : values[i]? = some (values.getD i none) := by
    simp [List.getD_eq_getElem?_getD, List.getElem?_eq_getElem hv]
  have hz : (dates.zip values)[i]? = some (dates.getD i 0, values.getD i none) :=
    List.getElem?_zip_eq_some.mpr ⟨h1, h2⟩
  rw [List.getD_eq_getElem?_getD, hz]
  rfl

theorem specLogChangeAt_eq_step (values : List (Option ℝ)) (i : ℕ) (hi : i < values.length) :
    specLogChangeAt values i
      = logChangeStep (if i = 0 then none else values.getD (i - 1) none) (values.getD i none) := by
  match i with
  | 0 => simp [specLogChangeAt, logChangeStep_none_left]
  | Nat.succ k =>
      have hk : k < values.length := by omega
      have h1 : values[k]? = some (values.getD k none) := by
        simp [List.getD_eq_getElem?_getD, List.getElem?_eq_getElem hk]
      have h2 : values[k + 1]? = some (values.getD (k + 1) none) := by
        simp [List.getD_eq_getElem?_getD, List.getElem?_eq_getElem hi]
      unfold specLogChangeAt
      rw [if_neg (Nat.succ_ne_zero k)]
      simp only [Nat.succ_sub_one]
      rw [h1, h2]
      rw [if_neg (Nat.succ_ne_zero k)]
      cases hp : values.getD k none with
      | none => simp [logChangeStep]
      | some p =>
          cases hc : values.getD (k + 1) none with
          | none => simp [logChangeStep]
          | some c =>
              show (if 0 < p ∧ 0 < c then some ((Real.log c - Real.log p) * 100) else none)
                = logChangeStep (some p) (some c)
              show _ = if p ≤ 0 ∨ c ≤ 0 then none else some ((Real.log c - Real.log p) * 100)
              by_cases hcond : p ≤ 0 ∨ c ≤ 0
              · have hn : ¬(0 < p ∧ 0 < c) := by
                  rintro ⟨hp0, hc0⟩
                  rcases hcond with h0 | h0 <;> linarith
                rw [if_pos hcond, if_neg hn]
              · push_neg at hcond
                have hn : ¬(p ≤ 0 ∨ c ≤ 0) := by
                  rintro (h0 | h0) <;> linarith [hcond.1, hcond.2]
                rw [if_neg hn, if_pos (show 0 < p ∧ 0 < c from ⟨hcond.1, hcond.2⟩)]

theorem specPercentChangeAt_eq_step (values : List (Option ℝ)) (i : ℕ) (hi : i < values.length) :
    specPercentChangeAt values i
      = percentChangeStep (if i = 0 then none else values.getD (i - 1) none)
          (values.getD i none) := by
  match i with
  | 0 => simp [specPercentChangeAt, percentChangeStep_none_left]
  | Nat.succ k =>
      have hk : k < values.length := by omega
      have h1 : values[k]? = some (values.getD k none) := by
        simp [List.getD_eq_getElem?_getD, List.getElem?_eq_getElem hk]
      have h2 : values[k + 1]? = some (values.getD (k + 1) none) := by
        simp [List.getD_eq_getElem?_getD, List.getElem?_eq_getElem hi]
      unfold specPercentChangeAt
      rw [if_neg (Nat.succ_ne_zero k)]
      simp only [Nat.succ_sub_one]
      rw [h1, h2]
      rw [if_neg (Nat.succ_ne_zero k)]
      cases hp : values.getD k none with
      | none => simp [percentChangeStep]
      | some p =>
          cases hc : values.getD (k + 1) none with
          | none => simp [percentChangeStep]
          | some c => rfl

/-! ## Claim C1 -/

/-- C1: for every table entry with dates and values of equal length, the
log-change transformer emits at index i the i-th date paired with the
spec-side change, which is present exactly when i ≥ 1 and both values[i]
and values[i-1] are present and strictly positive, in which case it equals
(ln values[i] - ln values[i-1]) * 100; the tracked previous is always the
immediately preceding row's raw value, so [100, None, 110] yields
[None, None, None]. -/
theorem log_change_series_matches_spec (dates : List Date)
    (data : List (String × List (Option ℝ))) (name : String) (values : List (Option ℝ))
    (hmem : (name, values) ∈ data) (h : dates.length = values.length)
    (i : ℕ) (hi : i < values.length) :
    (name, computeSeriesChanges logChangeStep none (dates.zip values))
        ∈ compute_weekly_log_changes dates data
      ∧ (computeSeriesChanges logChangeStep none (dates.zip values))[i]?
          = some (dates.getD i 0, specLogChangeAt values i) := by
  constructor
  · exact List.mem_map_of_mem _ hmem
  · have hzlen : (dates.zip values).length = values.length := by
      rw [List.length_zip, h]
      exact min_self _
    have hi' : i < (dates.zip values).length := by rw [hzlen]; exact hi
    rw [computeSeriesChanges_getElem logChangeStep _ none i hi']
    have hd : i < dates.length := by omega
    rw [zip_getD_eq dates values i hd hi, specLogChangeAt_eq_step values i hi]
    by_cases h0 : i = 0
    · subst h0; simp
    · have h1 : i - 1 < dates.length := by omega
      have h2 : i - 1 < values.length := by omega
      rw [zip_getD_eq dates values (i - 1) h1 h2]

/-- Witness for C1, at the spec's null-propagation example [100, None, 110]:
the change after the gap is also absent. -/
theorem log_change_series_matches_spec_witness :
    ((("USD", computeSeriesChanges logChangeStep none
          ([(1 : ℤ), 2, 3].zip [some (100 : ℝ), none, some 110]))
        ∈ compute_weekly_log_changes [1, 2, 3] [("USD", [some 100, none, some 110])])
      ∧ (computeSeriesChanges logChangeStep none
            ([(1 : ℤ), 2, 3].zip [some (100 : ℝ), none, some 110]))[2]?
          = some (3, specLogChangeAt [some 100, none, some 110] 2))
    ∧ specLogChangeAt [some (100 : ℝ), none, some 110] 2 = none
    ∧ specLogChangeAt [some (100 : ℝ), none, some 110] 1 = none
    ∧ specLogChangeAt [some (100 : ℝ), none, some 110] 0 = none := by
  refine ⟨log_change_series_matches_spec [1, 2, 3] [("USD", [some 100, none, some 110])]
      "USD" [some 100, none, some 110] (by simp) (by simp) 2 (by norm_num), rfl, rfl, rfl⟩

/-! ## Claim C2 -/

/-- C2: with the percent-change formula selected (spec-modelled, since src
only contains the log variant), the transformer emits at index i the change
(values[i] / values[i-1] - 1) * 100, absent exactly when the previous raw
value is absent, the current is absent, or the previous is zero. -/
theorem percent_change_series_matches_spec (dates : List Date)
    (data : List (String × List (Option ℝ))) (name : String) (values : List (Option ℝ))
    (hmem : (name, values) ∈ data) (h : dates.length = values.length)
    (i : ℕ) (hi : i < values.length) :
    (name, computeSeriesChanges percentChangeStep none (dates.zip values))
        ∈ compute_weekly_percent_changes dates data
      ∧ (computeSeriesChanges percentChangeStep none (dates.zip values))[i]?
          = some (dates.getD i 0, specPercentChangeAt values i) := by
  constructor
  · exact List.mem_map_of_mem _ hmem
  · have hzlen : (dates.zip values).length = values.length := by
      rw [List.length_zip, h]
      exact min_self _
    have hi' : i < (dates.zip values).length := by rw [hzlen]; exact hi
    rw [computeSeriesChanges_getElem percentChangeStep _ none i hi']
    have hd : i < dates.length := by omega
    rw [zip_getD_eq dates values i hd hi, specPercentChangeAt_eq_step values i hi]
    by_cases h0 : i = 0
    · subst h0; simp
    · have h1 : i - 1 < dates.length := by omega
      have h2 : i - 1 < values.length := by omega
      rw [zip_getD_eq dates values (i - 1) h1 h2]

/-- Witness for C2 at the spec's round-trip example: previous 100 and
current 110 give a percent change of exactly 10, within the claimed 1e-9. -/
theorem percent_change_series_matches_spec_witness :
    ((("EUR", computeSeriesChanges percentChangeStep none
          ([(1 : ℤ), 2].zip [some (100 : ℝ), some 110]))
        ∈ compute_weekly_percent_changes [1, 2] [("EUR", [some 100, some 110])])
      ∧ (computeSeriesChanges percentChangeStep none
            ([(1 : ℤ), 2].zip [some (100 : ℝ), some 110]))[1]?
          = some (2, specPercentChangeAt [some 100, some 110] 1))
    ∧ specPercentChangeAt [some (100 : ℝ), some 110] 1 = some 10
    ∧ |((110 : ℝ) / 100 - 1) * 100 - 10| ≤ 1 / 1000000000 := by
  refine ⟨percent_change_series_matches_spec [1, 2] [("EUR", [some 100, some 110])]
      "EUR" [some 100, some 110] (by simp) (by simp) 1 (by norm_num), ?_,
    by rw [show ((110 : ℝ) / 100 - 1) * 100 - 10 = 0 by norm_num, abs_zero]; norm_num⟩
  show (if (100 : ℝ) = 0 then none else some ((110 / 100 - 1) * 100)) = some 10
  rw [if_neg (by norm_num)]
  norm_num

/-! ## Claim C3: column-letter decoding -/

theorem isUpper_toNat_bounds (c : Char) (h : c.isUpper = true) :
    65 ≤ c.toNat ∧ c.toNat ≤ 90 := by
  simp [Char.isUpper, UInt32.le_def, BitVec.le_def] at h
  simp [Char.toNat, UInt32.toNat]
  omega

theorem isUpper_toUpper_self (c : Char) (h : c.isUpper = true) : c.toUpper = c := by
  simp [Char.isUpper, UInt32.le_def, BitVec.le_def] at h
  simp [Char.toUpper, Char.toNat, UInt32.toNat]
  intro h1
  omega

theorem isUpper_isAlpha (c : Char) (h : c.isUpper = true) : c.isAlpha = true := by
  simp [Char.isAlpha, h]

theorem char_toNat_inj (c d : Char) (h : c.toNat = d.toNat) : c = d := by
  apply Char.eq_of_val_eq
  apply UInt32.eq_of_toBitVec_eq
  apply BitVec.eq_of_toNat_eq
  exact h

theorem foldlBase26_nonneg (l : List ℤ) (a : ℤ) (ha : 0 ≤ a) (hl : ∀ d ∈ l, 1 ≤ d) :
    0 ≤ l.foldl (fun x d => x * 26 + d) a := by
  induction l generalizing a with
  | nil => exact ha
  | cons d t ih =>
      simp only [List.foldl_cons]
      apply ih
      · have hd : 1 ≤ d := hl d (by simp)
        have h26 : 0 ≤ a * 26 := mul_nonneg ha (by norm_num)
        linarith
      · intro x hx
        exact hl x (by simp [hx])

theorem foldlBase26_pos (l : List ℤ) (hl : ∀ d ∈ l, 1 ≤ d) (hne : l ≠ []) :
    1 ≤ l.foldl (fun x d => x * 26 + d) 0 := by
  have step : ∀ (t : List ℤ) (a : ℤ), 1 ≤ a → (∀ d ∈ t, 1 ≤ d) →
      1 ≤ t.foldl (fun x d => x * 26 + d) a := by
    intro t
    induction t with
    | nil => intro a ha _; exact ha
    | cons d t ih =>
        intro a ha ht
        simp only [List.foldl_cons]
        apply ih
        · have hd : 1 ≤ d := ht d (by simp)
          nlinarith
        · intro x hx
          exact ht x (by simp [hx])
  match l, hne with
  | d :: t, _ =>
      simp only [List.foldl_cons, zero_mul, zero_add]
      exact step t d (hl d (by simp)) (fun x hx => hl x (by simp [hx]))

theorem foldlBase26_concat (l : List ℤ) (d : ℤ) (a : ℤ) :
    (l ++ [d]).foldl (fun x d => x * 26 + d) a
      = (l.foldl (fun x d => x * 26 + d) a) * 26 + d := by
  rw [List.foldl_append]
  simp

theorem foldlBase26_inj (l1 l2 : List ℤ)
    (h1 : ∀ d ∈ l1, 1 ≤ d ∧ d ≤ 26) (h2 : ∀ d ∈ l2, 1 ≤ d ∧ d ≤ 26)
    (heq : l1.foldl (fun x d => x * 26 + d) 0 = l2.foldl (fun x d => x * 26 + d) 0) :
    l1 = l2 := by
  induction l1 using List.reverseRecOn generalizing l2 with
  | nil =>
      induction l2 using List.reverseRecOn with
      | nil => rfl
      | append_singleton t2 d2 _ =>
          exfalso
          rw [foldlBase26_concat] at heq
          have hv2 : 0 ≤ t2.foldl (fun x d => x * 26 + d) 0 :=
            foldlBase26_nonneg t2 0 le_rfl (fun d hd => (h2 d (by simp [hd])).1)
          have hd2 : 1 ≤ d2 := (h2 d2 (by simp)).1
          simp only [List.foldl_nil] at heq
          nlinarith
  | append_singleton t1 d1 ih =>
      induction l2 using List.reverseRecOn with
      | nil =>
          exfalso
          rw [foldlBase26_concat] at heq
          have hv1 : 0 ≤ t1.foldl (fun x d => x * 26 + d) 0 :=
            foldlBase26_nonneg t1 0 le_rfl (fun d hd => (h1 d (by simp [hd])).1)
          have hd1 : 1 ≤ d1 := (h1 d1 (by simp)).1
          simp only [List.foldl_nil] at heq
          nlinarith
      | append_singleton t2 d2 _ =>
          rw [foldlBase26_concat, foldlBase26_concat] at heq
          have hv1 : 0 ≤ t1.foldl (fun x d => x * 26 + d) 0 :=
            foldlBase26_nonneg t1 0 le_rfl (fun d hd => (h1 d (by simp [hd])).1)
          have hv2 : 0 ≤ t2.foldl (fun x d => x * 26 + d) 0 :=
            foldlBase26_nonneg t2 0 le_rfl (fun d hd => (h2 d (by simp [hd])).1)
          have hd1 := h1 d1 (by simp)
          have hd2 := h2 d2 (by simp)
          have hdd : d1 = d2 ∧ t1.foldl (fun x d => x * 26 + d) 0
              = t2.foldl (fun x d => x * 26 + d) 0 := by omega
          have ht : t1 = t2 :=
            ih t2 (fun d hd => h1 d (by simp [hd])) (fun d hd => h2 d (by simp [hd])) hdd.2
          rw [ht, hdd.1]

theorem column_letters_foldl_eq (l : List Char) (hup : ∀ c ∈ l, c.isUpper = true) (a : ℤ) :
    (l.filter Char.isAlpha).foldl
        (fun idx ch => idx * 26 + ((ch.toUpper.toNat : ℤ) - ('A'.toNat : ℤ) + 1)) a
      = (l.map (fun c => (c.toNat : ℤ) - 64)).foldl (fun x d => x * 26 + d) a := by
  induction l generalizing a with
  | nil => rfl
  | cons c t ih =>
      have hc : c.isUpper = true := hup c (by simp)
      rw [List.map_cons, List.filter_cons, if_pos (by simp [isUpper_isAlpha c hc])]
      simp only [List.foldl_cons]
      rw [isUpper_toUpper_self c hc]
      have hA : ('A'.toNat : ℤ) = 65 := by decide
      rw [hA, show (c.toNat : ℤ) - 65 + 1 = (c.toNat : ℤ) - 64 by ring]
      exact ih (fun x hx => hup x (by simp [hx])) _

theorem upper_char_map_inj (l1 l2 : List Char)
    (heq : l1.map (fun c => (c.toNat : ℤ) - 64) = l2.map (fun c => (c.toNat : ℤ) - 64)) :
    l1 = l2 := by
  induction l1 generalizing l2 with
  | nil =>
      cases l2 with
      | nil => rfl
      | cons c t => simp at heq
  | cons c1 t1 ih =>
      cases l2 with
      | nil => simp at heq
      | cons c2 t2 =>
          simp only [List.map_cons, List.cons.injEq] at heq
          have hn : c1.toNat = c2.toNat := by omega
          rw [char_toNat_inj c1 c2 hn, ih t2 heq.2]

/-- C3: the column decoder interprets the letters of a cell reference as a
1-indexed base-26 letter-position number and returns it 0-indexed: A to 0,
Z to 25, AA to 26, AZ to 51, BA to 52; and it is injective on sequences of
uppercase letters (the documented cell-reference domain). -/
theorem column_index_bijective_decode :
    (_column_index ['A'] = 0 ∧ _column_index ['Z'] = 25 ∧ _column_index ['A', 'A'] = 26
      ∧ _column_index ['A', 'Z'] = 51 ∧ _column_index ['B', 'A'] = 52)
    ∧ ∀ l1 l2 : List Char, (∀ c ∈ l1, c.isUpper = true) → (∀ c ∈ l2, c.isUpper = true) →
        _column_index l1 = _column_index l2 → l1 = l2 := by
  constructor
  · exact ⟨by decide, by decide, by decide, by decide, by decide⟩
  · intro l1 l2 h1 h2 heq
    simp only [_column_index] at heq
    rw [column_letters_foldl_eq l1 h1 0, column_letters_foldl_eq l2 h2 0] at heq
    have heq2 : (l1.map (fun c => (c.toNat : ℤ) - 64)).foldl (fun x d => x * 26 + d) 0
        = (l2.map (fun c => (c.toNat : ℤ) - 64)).foldl (fun x d => x * 26 + d) 0 := by
      omega
    have hbound : ∀ (l : List Char), (∀ c ∈ l, c.isUpper = true) →
        ∀ d ∈ l.map (fun c => (c.toNat : ℤ) - 64), 1 ≤ d ∧ d ≤ 26 := by
      intro l hl d hd
      obtain ⟨c, hc, rfl⟩ := List.mem_map.mp hd
      have := isUpper_toNat_bounds c (hl c hc)
      omega
    exact upper_char_map_inj l1 l2
      (foldlBase26_inj _ _ (hbound l1 h1) (hbound l2 h2) heq2)

/-- Witness for C3: the injectivity hypotheses are satisfiable on a concrete
uppercase reference. -/
theorem column_index_bijective_decode_witness : (['A', 'Z'] : List Char) = ['A', 'Z'] :=
  column_index_bijective_decode.2 ['A', 'Z'] ['A', 'Z'] (by decide) (by decide) rfl

/-! ## Claim C4: grid rectangularity -/

theorem pyListSet_length (row : List String) (idx : ℤ) (v : String) :
    (pyListSet row idx v).length = row.length := by
  simp only [pyListSet]
  split <;> split <;> simp

theorem padRow_foldl_length (d : List (ℤ × String)) :
    ∀ row : List String,
      (d.foldl (fun row kv => pyListSet row kv.1 kv.2) row).length = row.length := by
  induction d with
  | nil => intro row; rfl
  | cons kv t ih =>
      intro row
      simp only [List.foldl_cons]
      rw [ih, pyListSet_length]

theorem padRow_length (n : ℕ) (d : List (ℤ × String)) : (padRow n d).length = n := by
  unfold padRow
  rw [padRow_foldl_length, List.length_replicate]

theorem pyListSet_getD_ne (row : List String) (idx : ℤ) (v : String) (j : ℕ)
    (hk : 0 ≤ idx) (hne : idx ≠ (j : ℤ)) :
    (pyListSet row idx v).getD j "" = row.getD j "" := by
  simp only [pyListSet, if_neg (show ¬ idx < 0 from by omega)]
  split
  · rw [List.getD_eq_getElem?_getD, List.getD_eq_getElem?_getD,
      List.getElem?_set_ne (show idx.toNat ≠ j from by omega)]
  · rfl

theorem padRow_getD_not_key (n : ℕ) (d : List (ℤ × String)) (j : ℕ)
    (hd : ∀ kv ∈ d, 0 ≤ kv.1 ∧ kv.1 ≠ (j : ℤ)) :
    (padRow n d).getD j "" = "" := by
  have aux : ∀ (l : List (ℤ × String)) (row : List String),
      (∀ kv ∈ l, 0 ≤ kv.1 ∧ kv.1 ≠ (j : ℤ)) → row.getD j "" = "" →
      (l.foldl (fun row kv => pyListSet row kv.1 kv.2) row).getD j "" = "" := by
    intro l
    induction l with
    | nil => intro row _ h0; exact h0
    | cons kv t ih =>
        intro row hl h0
        simp only [List.foldl_cons]
        apply ih _ (fun e he => hl e (by simp [he]))
        rw [pyListSet_getD_ne row kv.1 kv.2 j (hl kv (by simp)).1 (hl kv (by simp)).2]
        exact h0
  unfold padRow
  apply aux d _ hd
  rw [List.getD_eq_getElem?_getD, List.getElem?_replicate]
  split <;> rfl

theorem foldl_maxColStep_eq (row : List Cell) (m : ℤ) :
    row.foldl maxColStep m
      = (row.filterMap
          (fun c => if c.ref.isEmpty then none else some (_column_index c.ref))).foldl max m := by
  induction row generalizing m with
  | nil => rfl
  | cons c t ih =>
      simp only [List.foldl_cons, List.filterMap_cons, maxColStep]
      by_cases h : c.ref.isEmpty
      · simp only [h, if_true]
        exact ih m
      · simp only [h, if_false, List.foldl_cons]
        exact ih (max m (_column_index c.ref))

theorem nested_maxCol_eq (sheetRows : List (List Cell)) (m : ℤ) :
    sheetRows.foldl (fun m row => row.foldl maxColStep m) m
      = sheetRows.foldl (fun m row =>
          (row.filterMap
            (fun c => if c.ref.isEmpty then none else some (_column_index c.ref))).foldl max m)
          m := by
  induction sheetRows generalizing m with
  | nil => rfl
  | cons r t ih =>
      simp only [List.foldl_cons]
      rw [foldl_maxColStep_eq]
      exact ih _

theorem foldr_max_nonneg (l : List ℤ) : 0 ≤ l.foldr max 0 := by
  induction l with
  | nil => simp
  | cons x t ih =>
      simp only [List.foldr_cons]
      exact le_trans ih (le_max_right x _)

theorem foldl_max_eq_max_foldr (l : List ℤ) : ∀ a : ℤ, 0 ≤ a →
    l.foldl max a = max a (l.foldr max 0) := by
  induction l with
  | nil =>
      intro a ha
      simp only [List.foldl_nil, List.foldr_nil]
      exact (max_eq_left ha).symm
  | cons x t ih =>
      intro a ha
      simp only [List.foldl_cons, List.foldr_cons]
      rw [ih (max a x) (le_trans ha (le_max_left a x)), max_assoc]

theorem read_sheet_count_eq_specWidth (sheetRows : List (List Cell)) :
    (_read_sheet_cells sheetRows).2 = specWidth sheetRows := by
  unfold _read_sheet_cells specWidth
  rw [nested_maxCol_eq]
  have h1 : sheetRows.foldl (fun m row =>
      (row.filterMap
        (fun c => if c.ref.isEmpty then none else some (_column_index c.ref))).foldl max m) 0
      = (declaredCols sheetRows).foldl max 0 := by
    unfold declaredCols
    rw [List.foldl_flatten, List.foldl_map]
  rw [h1, foldl_max_eq_max_foldr _ 0 le_rfl,
    max_eq_right (foldr_max_nonneg (declaredCols sheetRows))]
  ring

theorem dictInsert_mem (d : List (ℤ × String)) (k : ℤ) (v : String) (kv : ℤ × String)
    (hkv : kv ∈ dictInsert d k v) : kv.1 = k ∨ ∃ e ∈ d, kv.1 = e.1 := by
  unfold dictInsert at hkv
  split at hkv
  · obtain ⟨e, he, hfe⟩ := List.mem_map.mp hkv
    by_cases hek : e.1 = k
    · rw [if_pos hek] at hfe
      left
      rw [← hfe]
    · rw [if_neg hek] at hfe
      right
      exact ⟨e, he, by rw [← hfe]⟩
  · rcases List.mem_append.mp hkv with h | h
    · right
      exact ⟨kv, h, rfl⟩
    · left
      rw [List.mem_singleton.mp h]

theorem rowDict_keys (cells : List Cell) :
    ∀ kv ∈ rowDict cells,
      ∃ c ∈ cells, ¬c.ref.isEmpty = true ∧ kv.1 = _column_index c.ref := by
  have aux : ∀ (l : List Cell) (acc : List (ℤ × String)) (kv : ℤ × String),
      kv ∈ l.foldl (fun d c =>
        if c.ref.isEmpty then d else dictInsert d (_column_index c.ref) c.value) acc →
      (∃ e ∈ acc, kv.1 = e.1)
        ∨ ∃ c ∈ l, ¬c.ref.isEmpty = true ∧ kv.1 = _column_index c.ref := by
    intro l
    induction l with
    | nil => intro acc kv hkv; exact Or.inl ⟨kv, hkv, rfl⟩
    | cons c t ih =>
        intro acc kv hkv
        simp only [List.foldl_cons] at hkv
        by_cases hc : c.ref.isEmpty
        · rw [if_pos hc] at hkv
          rcases ih acc kv hkv with h | ⟨c2, hc2, h⟩
          · exact Or.inl h
          · exact Or.inr ⟨c2, by simp [hc2], h⟩
        · rw [if_neg hc] at hkv
          rcases ih _ kv hkv with ⟨e, he, hke⟩ | ⟨c2, hc2, h⟩
          · rcases dictInsert_mem acc (_column_index c.ref) c.value e he with hek | ⟨e2, he2, h2⟩
            · exact Or.inr ⟨c, by simp, hc, by rw [hke, hek]⟩
            · exact Or.inl ⟨e2, he2, by rw [hke, h2]⟩
          · exact Or.inr ⟨c2, by simp [hc2], h⟩
  intro kv hkv
  rcases aux cells [] kv hkv with ⟨e, he, _⟩ | h
  · cases he
  · exact h

theorem load_grid_eq (sheetRows : List (List Cell)) (hne : sheetRows ≠ []) :
    (load_bloomberg_weekly_exchange_rates sheetRows).header
        :: (load_bloomberg_weekly_exchange_rates sheetRows).rows
      = sheetRows.map
          (fun row => padRow (_read_sheet_cells sheetRows).2.toNat (rowDict row)) := by
  obtain ⟨r, t, rfl⟩ : ∃ r t, sheetRows = r :: t := by
    cases sheetRows with
    | nil => exact absurd rfl hne
    | cons r t => exact ⟨r, t, rfl⟩
  show (load_bloomberg_weekly_exchange_rates (r :: t)).header
      :: (load_bloomberg_weekly_exchange_rates (r :: t)).rows
    = padRow (_read_sheet_cells (r :: t)).2.toNat (rowDict r)
      :: t.map (fun row => padRow (_read_sheet_cells (r :: t)).2.toNat (rowDict row))
  unfold load_bloomberg_weekly_exchange_rates
  simp only [_read_sheet_cells, List.map_cons, List.map_map]
  rfl

/-- C4 counterexample: the extractor accepts a cell whose reference has no
letters (the code only skips an empty reference); it decodes to column
offset -1 and Python writes row[-1] = value, wrapping around to the last
column.  On the one-cell sheet with reference 123 no cell declares column
offset 0, yet the produced header holds "v" at position 0, not the empty
string. -/
theorem worksheet_grid_rectangular_counterexample :
    (∀ c ∈ ([⟨['1', '2', '3'], "v"⟩] : List Cell),
        ¬c.ref.isEmpty = true → _column_index c.ref ≠ (0 : ℤ))
    ∧ (load_bloomberg_weekly_exchange_rates [[⟨['1', '2', '3'], "v"⟩]]).header.getD 0 "" = "v"
    ∧ ¬(load_bloomberg_weekly_exchange_rates [[⟨['1', '2', '3'], "v"⟩]]).header.getD 0 ""
        = "" := by
  refine ⟨by decide, rfl, by decide⟩

/-- C4 amended: for every nonempty accepted sheet all of whose nonempty
cell references decode to a nonnegative column offset (i.e. contain at
least one letter, the documented reference form), the produced grid is
rectangular: the header row and every data row have length exactly (1 +
the maximum decoded column offset seen across all rows, at least 0), and
any position whose column offset is declared by no cell of that row holds
the empty string, regardless of sparse or out-of-order cell declarations.
The row-length conjuncts hold without the nonnegativity proviso; the
empty-cell conjunct needs it, since a letterless reference decodes to -1
and wraps around to overwrite the last column. -/
theorem worksheet_grid_rectangular_amended (sheetRows : List (List Cell))
    (hne : sheetRows ≠ [])
    (hvalid : ∀ row ∈ sheetRows, ∀ c ∈ row, ¬c.ref.isEmpty = true →
        0 ≤ _column_index c.ref) :
    ((load_bloomberg_weekly_exchange_rates sheetRows).header.length
        = (specWidth sheetRows).toNat
      ∧ ∀ r ∈ (load_bloomberg_weekly_exchange_rates sheetRows).rows,
          r.length = (specWidth sheetRows).toNat)
    ∧ ∀ i j : ℕ,
        (∀ c ∈ sheetRows.getD i [], ¬c.ref.isEmpty = true → _column_index c.ref ≠ (j : ℤ)) →
        (((load_bloomberg_weekly_exchange_rates sheetRows).header
            :: (load_bloomberg_weekly_exchange_rates sheetRows).rows).getD i []).getD j ""
          = "" := by
  have hgrid := load_grid_eq sheetRows hne
  have hcount := read_sheet_count_eq_specWidth sheetRows
  have hall : ∀ r ∈ (load_bloomberg_weekly_exchange_rates sheetRows).header
      :: (load_bloomberg_weekly_exchange_rates sheetRows).rows,
      r.length = (specWidth sheetRows).toNat := by
    intro r hr
    rw [hgrid] at hr
    obtain ⟨row, _, rfl⟩ := List.mem_map.mp hr
    rw [padRow_length, hcount]
  refine ⟨⟨hall _ (by simp), fun r hr => hall r (by simp [hr])⟩, ?_⟩
  intro i j hij
  rw [hgrid]
  by_cases hi : i < sheetRows.length
  · have hsome : (sheetRows.map
        (fun row => padRow (_read_sheet_cells sheetRows).2.toNat (rowDict row))).getD i []
        = padRow (_read_sheet_cells sheetRows).2.toNat (rowDict (sheetRows.getD i [])) := by
      rw [List.getD_eq_getElem?_getD, List.getElem?_map, List.getElem?_eq_getElem hi,
        List.getD_eq_getElem?_getD, List.getElem?_eq_getElem hi]
      rfl
    have hrowmem : sheetRows.getD i [] ∈ sheetRows := by
      rw [List.getD_eq_getElem?_getD, List.getElem?_eq_getElem hi]
      exact List.getElem_mem hi
    rw [hsome]
    apply padRow_getD_not_key
    intro kv hkv
    obtain ⟨c, hc, hcref, hkcol⟩ := rowDict_keys _ kv hkv
    constructor
    · rw [hkcol]
      exact hvalid (sheetRows.getD i []) hrowmem c hc hcref
    · rw [hkcol]
      exact hij c hc hcref
  · have hnone : (sheetRows.map
        (fun row => padRow (_read_sheet_cells sheetRows).2.toNat (rowDict row))).getD i []
        = [] := by
      rw [List.getD_eq_getElem?_getD, List.getElem?_eq_none (by simpa using hi)]
      rfl
    rw [hnone]
    rfl

/-- Witness for C4 (amended) on a sparse, out-of-order sheet whose
references all carry letters: header cell B1 only, data row declares C2
then A2; the grid is 3 wide everywhere and the undeclared position A1 is
empty. -/
theorem worksheet_grid_rectangular_witness :
    ((load_bloomberg_weekly_exchange_rates
        [[⟨['B', '1'], "x"⟩], [⟨['C', '2'], "z"⟩, ⟨['A', '2'], "y"⟩]]).header.length
      = (specWidth [[⟨['B', '1'], "x"⟩], [⟨['C', '2'], "z"⟩, ⟨['A', '2'], "y"⟩]]).toNat)
    ∧ (((load_bloomberg_weekly_exchange_rates
          [[⟨['B', '1'], "x"⟩], [⟨['C', '2'], "z"⟩, ⟨['A', '2'], "y"⟩]]).header
        :: (load_bloomberg_weekly_exchange_rates
          [[⟨['B', '1'], "x"⟩], [⟨['C', '2'], "z"⟩, ⟨['A', '2'], "y"⟩]]).rows).getD 0 []).getD 0 ""
      = "" := by
  have h := worksheet_grid_rectangular_amended
    [[⟨['B', '1'], "x"⟩], [⟨['C', '2'], "z"⟩, ⟨['A', '2'], "y"⟩]] (by simp) (by decide)
  refine ⟨h.1.1, h.2 0 0 ?_⟩
  intro c hc href
  simp only [List.getD_eq_getElem?_getD] at hc
  have : c = (⟨['B', '1'], "x"⟩ : Cell) := by
    simpa using hc
  rw [this]
  decide

/-! ## Claim C5: date-column identification -/

/-- C5: find_date_column returns the first header column whose lower-cased
name contains "date" when one exists, and falls back to the first column
otherwise; every column other than the identified date column becomes a
plotted series. -/
theorem date_column_identification :
    (∀ (pre : List (List Char)) (c : List Char) (post : List (List Char)),
        (∀ x ∈ pre, containsDate x = false) → containsDate c = true →
        find_date_column (pre ++ c :: post) = some c)
    ∧ (∀ columns : List (List Char), (∀ c ∈ columns, containsDate c = false) →
        find_date_column columns = columns.head?)
    ∧ (∀ (columns : List (List Char)) (d c : List Char),
        c ∈ plottedColumns columns d ↔ (c ∈ columns ∧ c ≠ d)) := by
  refine ⟨?_, ?_, ?_⟩
  · intro pre c post hpre hc
    unfold find_date_column
    rw [List.find?_append, List.find?_eq_none.mpr (fun x hx => by simp [hpre x hx]),
      Option.none_or, List.find?_cons_of_pos _ hc]
  · intro columns h
    unfold find_date_column
    rw [List.find?_eq_none.mpr (fun x hx => by simp [h x hx])]
  · intro columns d c
    unfold plottedColumns
    rw [List.mem_filter]
    simp

/-- Witness for C5: a header where only the second column mentions a date. -/
theorem date_column_identification_witness :
    find_date_column [['E', 'U', 'R'], ['D', 'a', 't', 'e']] = some ['D', 'a', 't', 'e'] :=
  date_column_identification.1 [['E', 'U', 'R']] ['D', 'a', 't', 'e'] []
    (by decide) (by decide)

/-! ## Claim C6: loader alignment (corrected) -/

theorem mem_pyDictKeys_aux (l : List String) :
    ∀ (acc : List String) (c : String),
      (c ∈ l.foldl (fun acc c => if c ∈ acc then acc else acc ++ [c]) acc
        ↔ c ∈ acc ∨ c ∈ l) := by
  induction l with
  | nil => intro acc c; simp
  | cons x t ih =>
      intro acc c
      simp only [List.foldl_cons]
      rw [ih]
      by_cases hx : x ∈ acc
      · rw [if_pos hx]
        constructor
        · rintro (h | h)
          · exact Or.inl h
          · exact Or.inr (by simp [h])
        · rintro (h | h)
          · exact Or.inl h
          · rcases List.mem_cons.mp h with h | h
            · exact Or.inl (h ▸ hx)
            · exact Or.inr h
      · rw [if_neg hx]
        constructor
        · rintro (h | h)
          · rcases List.mem_append.mp h with h | h
            · exact Or.inl h
            · exact Or.inr (by simp [List.mem_singleton.mp h])
          · exact Or.inr (by simp [h])
        · rintro (h | h)
          · exact Or.inl (List.mem_append.mpr (Or.inl h))
          · rcases List.mem_cons.mp h with h | h
            · exact Or.inl (List.mem_append.mpr (Or.inr (by simp [h])))
            · exact Or.inr h

theorem mem_pyDictKeys (l : List String) (c : String) : c ∈ pyDictKeys l ↔ c ∈ l := by
  unfold pyDictKeys
  rw [mem_pyDictKeys_aux]
  simp

theorem flatMap_replicate_one {α β : Type} (l : List α) (g : α → β) :
    l.flatMap (fun x => List.replicate 1 (g x)) = l.map g := by
  induction l with
  | nil => rfl
  | cons x t ih =>
      rw [List.flatMap_cons, ih, List.map_cons]
      rfl

/-- C6 counterexample: with the duplicated header Date,EUR,EUR and a single
valid data row, the loader's single aliased EUR list receives two appends
for the one kept row, so len(values[EUR]) = 2 while len(dates) = 1 — the
claimed invariant fails on this delimited input. -/
theorem loader_alignment_counterexample :
    ((load_exchange_rates (fun _ => some 0) (fun _ => none) ["Date", "EUR", "EUR"]
        [fun f => if f = "Date" then some "1/2/2020" else some "1.0"]).2
      = [("EUR", ([none, none] : List (Option ℝ)))])
    ∧ ((load_exchange_rates (fun _ => some 0) (fun _ => none) ["Date", "EUR", "EUR"]
        [fun f => if f = "Date" then some "1/2/2020" else some "1.0"]).1 = [(0 : ℤ)])
    ∧ ¬(∀ entry ∈ (load_exchange_rates (fun _ => some 0) (fun _ => none) ["Date", "EUR", "EUR"]
          [fun f => if f = "Date" then some "1/2/2020" else some "1.0"]).2,
        entry.2.length
          = (load_exchange_rates (fun _ => some 0) (fun _ => none) ["Date", "EUR", "EUR"]
              [fun f => if f = "Date" then some "1/2/2020" else some "1.0"]).1.length) := by
  refine ⟨rfl, rfl, ?_⟩
  intro h
  have hm := h ("EUR", ([none, none] : List (Option ℝ)))
    (by
      rw [show (load_exchange_rates (fun _ => some 0) (fun _ => none) ["Date", "EUR", "EUR"]
          [fun f => if f = "Date" then some "1/2/2020" else some "1.0"]).2
        = [("EUR", ([none, none] : List (Option ℝ)))] from rfl]
      exact List.mem_singleton_self _)
  rw [show (load_exchange_rates (fun _ => some 0) (fun _ => none) ["Date", "EUR", "EUR"]
      [fun f => if f = "Date" then some "1/2/2020" else some "1.0"]).1 = [(0 : ℤ)] from rfl] at hm
  simp at hm

/-- C6 amended: provided the non-date header names are pairwise distinct,
every series list has exactly the length of the dates list; and a row is
skipped — contributing nothing, with later rows still processed — exactly
when its date field is missing, empty, the placeholder "(auto)", or fails
to parse. -/
theorem loader_alignment_amended (strptime : String → Option Date)
    (pyFloat : String → Option ℝ) (fieldnames : List String)
    (rows : List (String → Option String))
    (hnd : (fieldnames.filter (fun f => !(f == "Date"))).Nodup) :
    (∀ entry ∈ (load_exchange_rates strptime pyFloat fieldnames rows).2,
        entry.2.length = (load_exchange_rates strptime pyFloat fieldnames rows).1.length)
    ∧ (∀ row : String → Option String, rowKeep strptime row = none ↔
        (row "Date" = none ∨ row "Date" = some "" ∨ row "Date" = some "(auto)"
          ∨ ∃ s, row "Date" = some s ∧ s ≠ "" ∧ s ≠ "(auto)" ∧ strptime s = none))
    ∧ (∀ (pre : List (String → Option String)) (bad : String → Option String)
          (post : List (String → Option String)), rowKeep strptime bad = none →
        load_exchange_rates strptime pyFloat fieldnames (pre ++ bad :: post)
          = load_exchange_rates strptime pyFloat fieldnames (pre ++ post)) := by
  refine ⟨?_, ?_, ?_⟩
  · intro entry hmem
    simp only [load_exchange_rates] at hmem ⊢
    obtain ⟨c, hc, rfl⟩ := List.mem_map.mp hmem
    have hcmem : c ∈ fieldnames.filter (fun f => !(f == "Date")) :=
      (mem_pyDictKeys _ c).mp hc
    have hcount : (fieldnames.filter (fun f => !(f == "Date"))).count c = 1 :=
      List.count_eq_one_of_mem hnd hcmem
    simp only [hcount]
    rw [flatMap_replicate_one]
    simp
  · intro row
    unfold rowKeep
    cases hrow : row "Date" with
    | none =>
        exact iff_of_true rfl (Or.inl rfl)
    | some s =>
        show (if s = "" ∨ s = "(auto)" then none else strptime s) = none ↔ _
        by_cases hs : s = "" ∨ s = "(auto)"
        · rw [if_pos hs]
          refine iff_of_true rfl ?_
          rcases hs with h | h
          · exact Or.inr (Or.inl (by rw [h]))
          · exact Or.inr (Or.inr (Or.inl (by rw [h])))
        · rw [if_neg hs]
          push_neg at hs
          constructor
          · intro hstr
            exact Or.inr (Or.inr (Or.inr ⟨s, rfl, hs.1, hs.2, hstr⟩))
          · rintro (h | h | h | ⟨s2, hs2, _, _, hstr⟩)
            · cases h
            · exact absurd (by injection h) hs.1
            · exact absurd (by injection h) hs.2
            · have hss : s = s2 := by injection hs2
              rw [hss]
              exact hstr
  · intro pre bad post hbad
    have hg : (rowKeep strptime bad).map
        (fun d => (d, bad)) = (none : Option (Date × (String → Option String))) := by
      rw [hbad]
      rfl
    simp only [load_exchange_rates, List.filterMap_append, List.filterMap_cons, hg]

/-- Witness for C6 (amended): a two-column table with one kept row and one
"(auto)" placeholder row; the placeholder row contributes nothing. -/
theorem loader_alignment_amended_witness :
    ((("EUR", [some (1 : ℝ)]) : String × List (Option ℝ)).2.length
      = (load_exchange_rates (fun s => if s = "1/2/2020" then some 5 else none)
          (fun _ => some 1) ["Date", "EUR"]
          [fun f => if f = "Date" then some "1/2/2020" else some "2"]).1.length)
    ∧ (load_exchange_rates (fun s => if s = "1/2/2020" then some 5 else none)
          (fun _ => some 1) ["Date", "EUR"]
          [fun f => if f = "Date" then some "1/2/2020" else some "2", fun _ => some "(auto)"]
        = load_exchange_rates (fun s => if s = "1/2/2020" then some 5 else none)
            (fun _ => some 1) ["Date", "EUR"]
            [fun f => if f = "Date" then some "1/2/2020" else some "2"]) := by
  have h := loader_alignment_amended (fun s => if s = "1/2/2020" then some 5 else none)
      (fun _ => some 1) ["Date", "EUR"]
      [fun f => if f = "Date" then some "1/2/2020" else some "2"] (by decide)
  refine ⟨h.1 ("EUR", [some (1 : ℝ)]) ?_, ?_⟩
  · rw [show (load_exchange_rates (fun s => if s = "1/2/2020" then some 5 else none)
        (fun _ => some 1) ["Date", "EUR"]
        [fun f => if f = "Date" then some "1/2/2020" else some "2"]).2
      = [("EUR", [some (1 : ℝ)])] from rfl]
    exact List.mem_singleton_self _
  · exact h.2.2 [fun f => if f = "Date" then some "1/2/2020" else some "2"]
      (fun _ => some "(auto)") [] rfl

/-! ## Claim C7: summary statistics -/

theorem summarize_cons (c2 : String) (series : List (Date × Option ℝ))
    (tl : List (String × List (Date × Option ℝ))) (s e : Option Date) :
    summarize_percent_changes ((c2, series) :: tl) s e
      = if 2 ≤ (qualifyingValues s e series).length
        then (c2, (fmean (qualifyingValues s e series), stdev (qualifyingValues s e series)))
            :: summarize_percent_changes tl s e
        else summarize_percent_changes tl s e := by
  simp only [summarize_percent_changes, List.filterMap_cons]
  by_cases hlen : (qualifyingValues s e series).length < 2
  · rw [if_pos hlen, if_neg (by omega)]
  · rw [if_neg hlen, if_pos (by omega)]

theorem summarize_lookup_none (pc : List (String × List (Date × Option ℝ)))
    (s e : Option Date) (c : String) (hc : c ∉ pc.map Prod.fst) :
    (summarize_percent_changes pc s e).lookup c = none := by
  induction pc with
  | nil => rfl
  | cons hd tl ih =>
      obtain ⟨c2, series2⟩ := hd
      have hsplit : c ≠ c2 ∧ c ∉ tl.map Prod.fst := by
        simpa using hc
      rw [summarize_cons]
      by_cases hlen : 2 ≤ (qualifyingValues s e series2).length
      · rw [if_pos hlen, List.lookup_cons,
          show (c == c2) = false by simp [hsplit.1]]
        exact ih hsplit.2
      · rw [if_neg hlen]
        exact ih hsplit.2

/-- C7: with distinct series names, the summary contains an entry for a
series exactly when that series has at least 2 present change values inside
the optional closed date window, and then the entry is the pair of the
arithmetic mean and the sample standard deviation of exactly those values;
a series with fewer than 2 qualifying values is absent. -/
theorem summary_stats_spec (pc : List (String × List (Date × Option ℝ)))
    (s e : Option Date) (hnd : (pc.map Prod.fst).Nodup)
    (c : String) (series : List (Date × Option ℝ)) (hmem : (c, series) ∈ pc) :
    (summarize_percent_changes pc s e).lookup c
      = if 2 ≤ (qualifyingValues s e series).length
        then some (fmean (qualifyingValues s e series), stdev (qualifyingValues s e series))
        else none := by
  induction pc with
  | nil => cases hmem
  | cons hd tl ih =>
      obtain ⟨c2, series2⟩ := hd
      rw [List.map_cons, List.nodup_cons] at hnd
      rw [summarize_cons]
      rcases List.mem_cons.mp hmem with heq | hmem2
      · rw [Prod.mk.injEq] at heq
        obtain ⟨rfl, rfl⟩ := heq
        by_cases hlen : 2 ≤ (qualifyingValues s e series).length
        · rw [if_pos hlen, if_pos hlen, List.lookup_cons,
            show (c == c) = true by simp]
        · rw [if_neg hlen, if_neg hlen]
          exact summarize_lookup_none tl s e c hnd.1
      · have hcne : c ≠ c2 := by
          intro hcc
          apply hnd.1
          rw [← hcc]
          exact List.mem_map.mpr ⟨(c, series), hmem2, rfl⟩
        by_cases hlen : 2 ≤ (qualifyingValues s e series2).length
        · rw [if_pos hlen, List.lookup_cons, show (c == c2) = false by simp [hcne]]
          exact ih hnd.2 hmem2
        · rw [if_neg hlen]
          exact ih hnd.2 hmem2

/-- Witness for C7: a two-point series over an unrestricted window. -/
theorem summary_stats_spec_witness :
    (summarize_percent_changes [("EUR", [((0 : ℤ), some (1 : ℝ)), (1, some 3)])]
        none none).lookup "EUR"
      = some (fmean [1, 3], stdev [1, 3]) := by
  rw [summary_stats_spec [("EUR", [((0 : ℤ), some (1 : ℝ)), (1, some 3)])] none none
      (by simp) "EUR" [((0 : ℤ), some (1 : ℝ)), (1, some 3)] (by simp),
    show qualifyingValues none none [((0 : ℤ), some (1 : ℝ)), (1, some 3)] = [1, 3] from rfl,
    if_pos (by norm_num)]

/-! ## Claim C8: correlation cells -/

theorem paired_eq_bothPresentPairs (xs ys : List (Option ℝ)) (h : xs.length = ys.length) :
    (xs.zip ys).filterMap pairPresent = bothPresentPairs xs ys := by
  induction xs generalizing ys with
  | nil =>
      cases ys with
      | nil => rfl
      | cons y t => simp at h
  | cons x xs ih =>
      cases ys with
      | nil => simp at h
      | cons y t =>
          have ht : xs.length = t.length := by simpa using h
          have hzip : (x :: xs).zip (y :: t) = (x, y) :: xs.zip t := rfl
          rw [hzip, List.filterMap_cons]
          unfold bothPresentPairs
          rw [show (x :: xs).length = xs.length + 1 from rfl, List.range_succ_eq_map,
            List.filterMap_cons, List.filterMap_map]
          have htail : (xs.zip t).filterMap pairPresent
              = List.filterMap
                  ((fun i =>
                    match (x :: xs)[i]?, (y :: t)[i]? with
                    | some (some a), some (some b) => some (a, b)
                    | _, _ => none) ∘ Nat.succ) (List.range xs.length) := by
            rw [ih t ht]
            unfold bothPresentPairs
            apply List.filterMap_congr
            intro i _
            simp only [Function.comp, List.getElem?_cons_succ]
            rfl
          cases x with
          | none =>
              cases y with
              | none => simpa [pairPresent] using htail
              | some b => simpa [pairPresent] using htail
          | some a =>
              cases y with
              | none => simpa [pairPresent] using htail
              | some b =>
                  simp only [pairPresent, List.getElem?_cons_zero]
                  rw [htail]
                  rfl

theorem sxx_nonneg (xs : List ℝ) : 0 ≤ sxx xs := by
  apply List.sum_nonneg
  intro x hx
  obtain ⟨y, _, rfl⟩ := List.mem_map.mp hx
  positivity

theorem fmean_const (xs : List ℝ) (k : ℝ) (hne : xs ≠ []) (hall : ∀ x ∈ xs, x = k) :
    fmean xs = k := by
  unfold fmean
  rw [List.sum_eq_card_nsmul xs k hall, nsmul_eq_mul]
  have h0 : xs.length ≠ 0 := fun hl => hne (List.length_eq_zero.mp hl)
  have hc : (xs.length : ℝ) ≠ 0 := Nat.cast_ne_zero.mpr h0
  rw [mul_comm, mul_div_assoc, div_self hc, mul_one]

theorem sxx_const (xs : List ℝ) (k : ℝ) (hne : xs ≠ []) (hall : ∀ x ∈ xs, x = k) :
    sxx xs = 0 := by
  unfold sxx
  apply List.sum_eq_zero
  intro x hx
  obtain ⟨y, hy, rfl⟩ := List.mem_map.mp hx
  rw [hall y hy, fmean_const xs k hne hall]
  ring

theorem sqrt_sxx_mul_eq_zero (as bs : List ℝ) :
    Real.sqrt (sxx as * sxx bs) = 0 ↔ sxx as = 0 ∨ sxx bs = 0 := by
  rw [Real.sqrt_eq_zero']
  constructor
  · intro hle
    exact mul_eq_zero.mp (le_antisymm hle (mul_nonneg (sxx_nonneg as) (sxx_nonneg bs)))
  · rintro (h | h) <;> rw [h] <;> simp

/-- C8: for equally long change series, the matrix cell equals the Pearson
coefficient computed over exactly the index positions where both series are
present whenever there are at least 2 such positions and neither paired
sample has zero variance, and is blank precisely otherwise; a constant
series of length at least 2 yields a blank cell against every series. -/
theorem correlation_cell_spec (xs ys : List (Option ℝ)) (h : xs.length = ys.length) :
    (corrCell xs ys
      = if 2 ≤ (bothPresentPairs xs ys).length
            ∧ sxx ((bothPresentPairs xs ys).map Prod.fst) ≠ 0
            ∧ sxx ((bothPresentPairs xs ys).map Prod.snd) ≠ 0
        then some (pearson (bothPresentPairs xs ys))
        else none)
    ∧ ∀ k : ℝ, 2 ≤ xs.length → (∀ v ∈ xs, v = some k) → corrCell xs ys = none := by
  constructor
  · simp only [corrCell]
    rw [paired_eq_bothPresentPairs xs ys h]
    by_cases hlen : (bothPresentPairs xs ys).length < 2
    · rw [if_pos hlen, if_neg (by rintro ⟨h2, _, _⟩; omega)]
    · rw [if_neg hlen]
      simp only [correlation]
      by_cases hz : Real.sqrt (sxx ((bothPresentPairs xs ys).map Prod.fst)
          * sxx ((bothPresentPairs xs ys).map Prod.snd)) = 0
      · rw [if_pos hz, if_neg]
        rintro ⟨_, hne1, hne2⟩
        rcases (sqrt_sxx_mul_eq_zero _ _).mp hz with h0 | h0
        · exact hne1 h0
        · exact hne2 h0
      · rw [if_neg hz, if_pos ⟨by omega,
          fun h0 => hz ((sqrt_sxx_mul_eq_zero _ _).mpr (Or.inl h0)),
          fun h0 => hz ((sqrt_sxx_mul_eq_zero _ _).mpr (Or.inr h0))⟩]
        rfl
  · intro k hk hall
    simp only [corrCell]
    by_cases hlen : ((xs.zip ys).filterMap pairPresent).length < 2
    · rw [if_pos hlen]
    · rw [if_neg hlen]
      have hne : (xs.zip ys).filterMap pairPresent ≠ [] := by
        intro h0
        rw [h0] at hlen
        simp at hlen
      have hfst : ∀ v ∈ ((xs.zip ys).filterMap pairPresent).map Prod.fst, v = k := by
        intro v hv
        obtain ⟨p, hp, rfl⟩ := List.mem_map.mp hv
        obtain ⟨a, ha, hpa⟩ := List.mem_filterMap.mp hp
        obtain ⟨a1, a2⟩ := a
        have h1k : a1 = some k := hall a1 (List.of_mem_zip ha).1
        rw [h1k] at hpa
        cases a2 with
        | none => simp [pairPresent] at hpa
        | some b =>
            simp only [pairPresent] at hpa
            obtain rfl : (k, b) = p := Option.some.inj hpa
            rfl
      have hfne : ((xs.zip ys).filterMap pairPresent).map Prod.fst ≠ [] := by
        simpa using hne
      simp only [correlation]
      have hz : Real.sqrt (sxx (((xs.zip ys).filterMap pairPresent).map Prod.fst)
          * sxx (((xs.zip ys).filterMap pairPresent).map Prod.snd)) = 0 := by
        rw [sxx_const _ k hfne hfst, zero_mul, Real.sqrt_zero]
      rw [if_pos hz]

/-- Witness for C8: a constant series [1, 1] against [2, 3] yields a blank
cell (zero variance on the left sample). -/
theorem correlation_cell_spec_witness :
    corrCell [some (1 : ℝ), some 1] [some 2, some 3] = none :=
  (correlation_cell_spec [some 1, some 1] [some 2, some 3] rfl).2 1 (by norm_num)
    (by
      intro v hv
      simp only [List.mem_cons, List.not_mem_nil, or_false] at hv
      rcases hv with h | h <;> exact h)

/-! ## Claim C9: renderer degeneracy -/

theorem min?_of_all_eq (l : List ℝ) (k : ℝ) (hne : l ≠ []) (hall : ∀ x ∈ l, x = k) :
    l.min? = some k := by
  induction l with
  | nil => exact absurd rfl hne
  | cons x t ih =>
      rw [List.min?_cons]
      rcases eq_or_ne t [] with rfl | htne
      · simp [hall x (by simp)]
      · rw [ih htne (fun y hy => hall y (by simp [hy])), hall x (by simp)]
        simp

theorem max?_of_all_eq (l : List ℝ) (k : ℝ) (hne : l ≠ []) (hall : ∀ x ∈ l, x = k) :
    l.max? = some k := by
  induction l with
  | nil => exact absurd rfl hne
  | cons x t ih =>
      rw [List.max?_cons]
      rcases eq_or_ne t [] with rfl | htne
      · simp [hall x (by simp)]
      · rw [ih htne (fun y hy => hall y (by simp [hy])), hall x (by simp)]
        simp

/-- C9: the renderer is safe on degenerate inputs.  A series with exactly
one present point maps it to the horizontal canvas centre width / 2; a
series whose present values are all equal has its value range widened to
exactly 2 units (so the vertical scaling divides by a nonzero range) and
every polyline point sits at the well-defined height height / 2. -/
theorem renderer_degenerate_safe (values : List (Option ℝ)) (width height padding : ℝ) :
    (∀ (i : ℕ) (v : ℝ), seriesPoints values = [(i, v)] →
        (polylinePoints values width height padding).map Prod.fst = [width / 2])
    ∧ (∀ k : ℝ, seriesPoints values ≠ [] → (∀ p ∈ seriesPoints values, p.2 = k) →
        hiY values - loY values = 2
          ∧ ∀ q ∈ polylinePoints values width height padding, q.2 = height / 2) := by
  constructor
  · intro i v hsp
    have hminmax : rawMaxX values = rawMinX values := by
      unfold rawMaxX rawMinX
      rw [hsp]
      rfl
    unfold polylinePoints
    rw [hsp]
    simp only [List.map_cons, List.map_nil]
    congr 1
    unfold scaleX
    rw [if_pos hminmax]
    ring
  · intro k hne hall
    have hpts : ∀ y ∈ (seriesPoints values).map Prod.snd, y = k := by
      intro y hy
      obtain ⟨p, hp, rfl⟩ := List.mem_map.mp hy
      exact hall p hp
    have hne2 : (seriesPoints values).map Prod.snd ≠ [] := by simpa using hne
    have hminy : rawMinY values = k := by
      unfold rawMinY
      rw [min?_of_all_eq _ k hne2 hpts]
      rfl
    have hmaxy : rawMaxY values = k := by
      unfold rawMaxY
      rw [max?_of_all_eq _ k hne2 hpts]
      rfl
    have hclose : isclose (rawMinY values) (rawMaxY values) := by
      rw [hminy, hmaxy]
      unfold isclose
      rw [sub_self, abs_zero]
      exact le_max_right _ _
    have hlo : loY values = k - 1 := by
      unfold loY
      rw [if_pos hclose, hminy]
    have hhi : hiY values = k + 1 := by
      unfold hiY
      rw [if_pos hclose, hmaxy]
    refine ⟨by rw [hlo, hhi]; ring, ?_⟩
    intro q hq
    obtain ⟨p, hp, rfl⟩ := List.mem_map.mp hq
    show scaleY values height padding p.2 = height / 2
    unfold scaleY
    rw [hall p hp, hlo, hhi]
    ring

/-- Witness for C9: a single-point series on the default 1200 by 600 canvas
with padding 50 maps to x = 600; a constant series [3, 3] gets the widened
vertical range of exactly 2. -/
theorem renderer_degenerate_safe_witness :
    ((polylinePoints [none, some (5 : ℝ)] 1200 600 50).map Prod.fst = [1200 / 2])
    ∧ (hiY [some (3 : ℝ), some 3] - loY [some (3 : ℝ), some 3] = 2) := by
  constructor
  · exact (renderer_degenerate_safe [none, some 5] 1200 600 50).1 1 5 rfl
  · refine ((renderer_degenerate_safe [some 3, some 3] 1200 600 50).2 3 ?_ ?_).1
    · intro h0
      rw [show seriesPoints [some (3 : ℝ), some 3] = [(0, 3), (1, 3)] from rfl] at h0
      cases h0
    · intro p hp
      rw [show seriesPoints [some (3 : ℝ), some 3] = [(0, 3), (1, 3)] from rfl] at hp
      rcases List.mem_cons.mp hp with rfl | hp2
      · rfl
      · rcases List.mem_cons.mp hp2 with rfl | hp3
        · rfl
        · cases hp3

/-! ## Claim C10: correlation matrix symmetry -/

theorem sxy_symm (as bs : List ℝ) : sxy bs as = sxy as bs := by
  unfold sxy
  rw [← List.zip_swap as bs, List.map_map]
  congr 1
  apply List.map_congr_left
  intro p _
  show (p.2 - fmean bs) * (p.1 - fmean as) = (p.1 - fmean as) * (p.2 - fmean bs)
  ring

theorem correlation_symm (as bs : List ℝ) : correlation bs as = correlation as bs := by
  unfold correlation
  rw [sxy_symm as bs, mul_comm (sxx bs) (sxx as)]

theorem corrCell_symm (xs ys : List (Option ℝ)) : corrCell xs ys = corrCell ys xs := by
  simp only [corrCell]
  have hswap : (ys.zip xs).filterMap pairPresent
      = ((xs.zip ys).filterMap pairPresent).map Prod.swap := by
    rw [← List.zip_swap xs ys, List.filterMap_map, List.map_filterMap]
    apply List.filterMap_congr
    intro p _
    obtain ⟨a, b⟩ := p
    cases a <;> cases b <;> rfl
  rw [hswap, List.length_map]
  by_cases hlen : ((xs.zip ys).filterMap pairPresent).length < 2
  · rw [if_pos hlen, if_pos hlen]
  · rw [if_neg hlen, if_neg hlen]
    have h1 : (((xs.zip ys).filterMap pairPresent).map Prod.swap).map Prod.fst
        = ((xs.zip ys).filterMap pairPresent).map Prod.snd := by
      rw [List.map_map]
      apply List.map_congr_left
      intro p _
      rfl
    have h2 : (((xs.zip ys).filterMap pairPresent).map Prod.swap).map Prod.snd
        = ((xs.zip ys).filterMap pairPresent).map Prod.fst := by
      rw [List.map_map]
      apply List.map_congr_left
      intro p _
      rfl
    rw [h1, h2]
    exact (correlation_symm _ _).symm

theorem getD_map_of_lt {α β : Type} (f : α → β) (l : List α) (i : ℕ) (a : α) (b : β)
    (hi : i < l.length) : (l.map f).getD i b = f (l.getD i a) := by
  rw [List.getD_eq_getElem?_getD, List.getElem?_map, List.getElem?_eq_getElem hi,
    List.getD_eq_getElem?_getD, List.getElem?_eq_getElem hi]
  rfl

theorem getD_of_ge {α : Type} (l : List α) (i : ℕ) (b : α) (hi : l.length ≤ i) :
    l.getD i b = b := by
  rw [List.getD_eq_getElem?_getD, List.getElem?_eq_none hi]
  rfl

/-- C10: the computed correlation matrix is symmetric: the cell in row i,
column j equals the cell in row j, column i — out-of-range positions read as
blank on both sides — because the paired-position pairing and the Pearson
formula are symmetric in the two series. -/
theorem correlation_matrix_symmetric (pc : List (String × List (Date × Option ℝ))) (i j : ℕ) :
    ((correlationMatrix pc).getD i []).getD j none
      = ((correlationMatrix pc).getD j []).getD i none := by
  simp only [correlationMatrix]
  by_cases hi : i < (pc.map (fun entry => entry.2.map Prod.snd)).length
    <;> by_cases hj : j < (pc.map (fun entry => entry.2.map Prod.snd)).length
  · rw [getD_map_of_lt _ _ i [] [] hi, getD_map_of_lt _ _ j [] [] hj]
    rw [getD_map_of_lt _ _ j [] none hj, getD_map_of_lt _ _ i [] none hi]
    exact corrCell_symm _ _
  · have hL : (((pc.map (fun entry => entry.2.map Prod.snd)).map
        (fun base => (pc.map (fun entry => entry.2.map Prod.snd)).map
          (fun other => corrCell base other))).getD i []).getD j none = none := by
      rw [getD_map_of_lt _ _ i [] [] hi]
      rw [getD_of_ge _ j none (by rw [List.length_map]; omega)]
    have hR : (((pc.map (fun entry => entry.2.map Prod.snd)).map
        (fun base => (pc.map (fun entry => entry.2.map Prod.snd)).map
          (fun other => corrCell base other))).getD j []).getD i none = none := by
      rw [getD_of_ge _ j [] (by rw [List.length_map]; omega)]
      rfl
    rw [hL, hR]
  · have hL : (((pc.map (fun entry => entry.2.map Prod.snd)).map
        (fun base => (pc.map (fun entry => entry.2.map Prod.snd)).map
          (fun other => corrCell base other))).getD i []).getD j none = none := by
      rw [getD_of_ge _ i [] (by rw [List.length_map]; omega)]
      rfl
    have hR : (((pc.map (fun entry => entry.2.map Prod.snd)).map
        (fun base => (pc.map (fun entry => entry.2.map Prod.snd)).map
          (fun other => corrCell base other))).getD j []).getD i none = none := by
      rw [getD_map_of_lt _ _ j [] [] hj]
      rw [getD_of_ge _ i none (by rw [List.length_map]; omega)]
    rw [hL, hR]
  · rw [getD_of_ge _ i [] (by rw [List.length_map]; omega),
      getD_of_ge _ j [] (by rw [List.length_map]; omega)]
    rfl
